import Mathlib

/-!
Verification of the xspec_emcee job-dispatch engine.

This file embeds, as executable Lean definitions, the parts of the
repository relevant to the frozen claims:

* the sentinel-delimited buffer extraction of worker responses
  (xspec_emcee/xspec_proc.py, XspecProc.read_buffer);
* the linkage-expression parser and parameter linking of the combined
  model (xspec_emcee/xspec_pool.py, CombinedModel);
* the prior evaluation and the free/busy dispatch scheduler
  (xspec_emcee/xspec_pool.py, ProcState and XspecPool.map).

Floats are modelled as rationals extended with a bottom element
(negative infinity), which is how the code uses them: priors and
likelihoods are either finite or -inf, and -inf is absorbing under the
additions performed by the code.
-/

/-- Scores are floats used as log-probabilities: either finite or -inf.
The code never produces +inf or NaN on these paths. -/
inductive Score where
  | negInf : Score
  | fin : ℚ → Score
deriving DecidableEq

namespace Score

/-- Float addition restricted to the values the code handles:
-inf absorbs, finite values add. -/
def add : Score → Score → Score
  | fin a, fin b => fin (a + b)
  | _, _ => negInf

instance : Add Score := ⟨Score.add⟩

instance : Zero Score := ⟨Score.fin 0⟩

/-- Mirror of numpy isfinite on these values. -/
def isFinite : Score → Bool
  | negInf => false
  | fin _ => true

theorem add_def (a b : Score) : a + b = Score.add a b := rfl

theorem negInf_add (a : Score) : negInf + a = negInf := by
  cases a <;> rfl

theorem add_negInf (a : Score) : a + negInf = negInf := by
  cases a <;> rfl

theorem fin_add_fin (a b : ℚ) : fin a + fin b = fin (a + b) := rfl

instance : AddCommMonoid Score where
  add_assoc a b c := by
    cases a <;> cases b <;> cases c <;> simp [add_def, add] <;> ring
  zero_add a := by
    cases a <;> simp [add_def, add] <;> rfl
  add_zero a := by
    cases a <;> simp [add_def, add] <;> rfl
  add_comm a b := by
    cases a <;> cases b <;> simp [add_def, add] <;> ring
  nsmul := nsmulRec

theorem isFinite_false_iff (a : Score) : a.isFinite = false ↔ a = negInf := by
  cases a <;> simp [isFinite]

theorem add_right_cancel_fin (a b : Score) (q : ℚ)
    (h : a + fin q = b + fin q) : a = b := by
  cases a <;> cases b <;> simp [add_def, add] at h ⊢ <;> linarith

end Score

/-!
## Worker channel buffer extraction

Model of XspecProc.read_buffer (xspec_emcee/xspec_proc.py).  The
process output is accumulated in a text buffer; a response is the text
captured by the regular expression r'>EMCEE>\s*(.*?)\s*<EMCEE<' with
DOTALL, i.e. the whitespace-stripped text between the first start
marker and the first end marker after it.  On a successful extraction
the whole buffer is cleared.
-/

/-- Python regex \s on the ASCII characters the protocol uses. -/
def pySpace (c : Char) : Bool :=
  c = ' ' || c = '\t' || c = '\n' || c = '\r' || c = '\x0b' || c = '\x0c'

/-- Python str.strip / the \s* trimming done by the result regex. -/
def pyStrip (s : List Char) : List Char :=
  ((s.dropWhile pySpace).reverse.dropWhile pySpace).reverse

/-- Does the pattern occur at the head of the text? -/
def leadsWith : List Char → List Char → Bool
  | [], _ => true
  | _ :: _, [] => false
  | p :: ps, c :: cs => p = c && leadsWith ps cs

/-- Index of the first occurrence of a pattern in a text, if any. -/
def findSub (pat : List Char) : List Char → Option Nat
  | [] => if leadsWith pat [] then some 0 else none
  | c :: cs =>
    if leadsWith pat (c :: cs) then some 0
    else (findSub pat cs).map (fun k => k + 1)

def startMarker : List Char := ">EMCEE>".data

def endMarker : List Char := "<EMCEE<".data

/-- The leftmost match of the result regex: the stripped payload
between the first start marker and the first end marker after it. -/
def searchResult (s : List Char) : Option (List Char) :=
  match findSub startMarker s with
  | none => none
  | some i =>
    let rest := s.drop (i + startMarker.length)
    match findSub endMarker rest with
    | none => none
    | some j => some (pyStrip (rest.take j))

/-- XspecProc.read_buffer: append the newly read data to the buffer;
if the buffer now holds a complete response, return its payload and
clear the buffer, else keep the accumulated buffer. -/
def read_buffer (buf data : List Char) : Option (List Char) × List Char :=
  let b := buf ++ data
  match searchResult b with
  | some r => (some r, [])
  | none => (none, b)

/-- Feeding a response to the channel in successive reads, as the
polling loop does: each read appends a chunk and attempts extraction,
stopping at the first extracted payload. -/
def feedChunks : List Char → List (List Char) → Option (List Char)
  | _, [] => none
  | buf, c :: cs =>
    match read_buffer buf c with
    | (some r, _) => some r
    | (none, b) => feedChunks b cs

/-- XspecProc.single_cmd's retry loop: keep calling read_buffer on the
successive reads until a payload is extracted; none means the loop is
still waiting after consuming all the given reads. -/
def readRetry : List Char → List (List Char) → Option (List Char)
  | _, [] => none
  | buf, d :: ds =>
    match read_buffer buf d with
    | (some r, _) => some r
    | (none, b) => readRetry b ds

theorem leadsWith_append (p s t : List Char) (h : leadsWith p s = true) :
    leadsWith p (s ++ t) = true := by
  induction p generalizing s with
  | nil => rfl
  | cons a ps ih =>
    cases s with
    | nil => simp [leadsWith] at h
    | cons c cs =>
      simp only [leadsWith, Bool.and_eq_true] at h
      simp only [List.cons_append, leadsWith, Bool.and_eq_true]
      exact ⟨h.1, ih cs h.2⟩

theorem leadsWith_length (p s : List Char) (h : leadsWith p s = true) :
    p.length ≤ s.length := by
  induction p generalizing s with
  | nil => simp
  | cons a ps ih =>
    cases s with
    | nil => simp [leadsWith] at h
    | cons c cs =>
      simp only [leadsWith, Bool.and_eq_true] at h
      simpa [Nat.succ_le_succ_iff] using ih cs h.2

theorem leadsWith_of_append_le (p s t : List Char)
    (h : leadsWith p (s ++ t) = true) (hle : p.length ≤ s.length) :
    leadsWith p s = true := by
  induction p generalizing s with
  | nil => rfl
  | cons a ps ih =>
    cases s with
    | nil => simp at hle
    | cons c cs =>
      simp only [List.cons_append, leadsWith, Bool.and_eq_true] at h
      simp only [List.length_cons, Nat.succ_le_succ_iff] at hle
      simp only [leadsWith, Bool.and_eq_true]
      exact ⟨h.1, ih cs h.2 hle⟩

theorem findSub_bound (p s : List Char) (i : Nat)
    (h : findSub p s = some i) : i + p.length ≤ s.length := by
  induction s generalizing i with
  | nil =>
    simp only [findSub] at h
    by_cases hl : leadsWith p [] = true
    · have hp : p = [] := by
        cases p with
        | nil => rfl
        | cons a ps => simp [leadsWith] at hl
      subst hp
      simp [hl] at h
      omega
    · simp [hl] at h
  | cons c cs ih =>
    simp only [findSub] at h
    by_cases hl : leadsWith p (c :: cs) = true
    · simp [hl] at h
      subst h
      simpa using leadsWith_length p (c :: cs) hl
    · simp [hl] at h
      obtain ⟨k, hk, hki⟩ := h
      have := ih k hk
      simp only [List.length_cons]
      omega

theorem findSub_nil_some (p : List Char) (i : Nat)
    (h : findSub p [] = some i) : p = [] ∧ i = 0 := by
  simp only [findSub] at h
  by_cases hl : leadsWith p [] = true
  · have hp : p = [] := by
      cases p with
      | nil => rfl
      | cons a ps => simp [leadsWith] at hl
    simp [hl] at h
    exact ⟨hp, h.symm⟩
  · simp [hl] at h

theorem findSub_nil_pat (t : List Char) : findSub [] t = some 0 := by
  cases t <;> simp [findSub, leadsWith]

theorem findSub_append (p s t : List Char) (i : Nat)
    (h : findSub p s = some i) : findSub p (s ++ t) = some i := by
  induction s generalizing i with
  | nil =>
    obtain ⟨hp, hi⟩ := findSub_nil_some p i h
    subst hp; subst hi
    simpa using findSub_nil_pat t
  | cons c cs ih =>
    simp only [findSub] at h
    by_cases hl : leadsWith p (c :: cs) = true
    · simp [hl] at h
      subst h
      have := leadsWith_append p (c :: cs) t hl
      simp only [List.cons_append] at this ⊢
      simp [findSub, this]
    · simp [hl] at h
      obtain ⟨k, hk, hki⟩ := h
      have hl2 : ¬ leadsWith p (c :: (cs ++ t)) = true := by
        intro h2
        have hb := findSub_bound p cs k hk
        have hle : p.length ≤ (c :: cs).length := by
          simp only [List.length_cons]; omega
        have := leadsWith_of_append_le p (c :: cs) t (by simpa using h2) hle
        exact absurd this hl
      simp only [List.cons_append, findSub, List.append_eq]
      rw [if_neg hl2, ih k hk]
      simp [hki]

theorem searchResult_append (s t : List Char) (r : List Char)
    (h : searchResult s = some r) : searchResult (s ++ t) = some r := by
  unfold searchResult at h ⊢
  cases hs : findSub startMarker s with
  | none => rw [hs] at h; simp at h
  | some i =>
    rw [hs] at h
    rw [findSub_append startMarker s t i hs]
    simp only at h ⊢
    cases he : findSub endMarker (s.drop (i + startMarker.length)) with
    | none => rw [he] at h; simp at h
    | some j =>
      rw [he] at h
      simp only [Option.some.injEq] at h
      have hib := findSub_bound startMarker s i hs
      have hdrop : (s ++ t).drop (i + startMarker.length)
          = s.drop (i + startMarker.length) ++ t := by
        rw [List.drop_append_eq_append_drop]
        have : i + startMarker.length - s.length = 0 := by omega
        rw [this]
        simp
      rw [hdrop, findSub_append endMarker _ t j he]
      simp only [Option.some.injEq]
      have hjb := findSub_bound endMarker (s.drop (i + startMarker.length)) j he
      have htake : (s.drop (i + startMarker.length) ++ t).take j
          = (s.drop (i + startMarker.length)).take j := by
        rw [List.take_append_eq_append_take]
        have : j - (s.drop (i + startMarker.length)).length = 0 := by omega
        rw [this]
        simp
      rw [htake]
      exact h

theorem searchResult_nil : searchResult [] = none := by decide

theorem feedChunks_eq_aux (cs : List (List Char)) :
    ∀ buf : List Char, searchResult buf = none →
      feedChunks buf cs = searchResult (buf ++ cs.join) := by
  induction cs with
  | nil =>
    intro buf hb
    simp [feedChunks, hb]
  | cons c cs ih =>
    intro buf hb
    simp only [feedChunks, read_buffer]
    cases hs : searchResult (buf ++ c) with
    | some r =>
      simp only
      have : searchResult (buf ++ (c :: cs).join) = some r := by
        have := searchResult_append (buf ++ c) cs.join r hs
        simpa [List.append_assoc] using this
      rw [this]
    | none =>
      simp only
      rw [ih (buf ++ c) hs]
      simp [List.append_assoc]

/-- C6: feeding a worker response to the channel buffer in arbitrarily
split successive reads extracts the same payload as one full read:
the buffer-extraction routine is insensitive to how the response text
is chunked across reads. -/
theorem read_buffer_chunking (chunks : List (List Char)) :
    feedChunks [] chunks = searchResult chunks.join := by
  have := feedChunks_eq_aux chunks [] searchResult_nil
  simpa using this

/-- C7 counterexample: with the buffer holding a complete response
followed by further bytes "XYZ", extraction returns the payload but
clears the whole buffer; the trailing bytes do NOT remain. -/
theorem read_buffer_tail_discarded_counterexample :
    (read_buffer [] (">EMCEE> 5 <EMCEE<XYZ".data)).1 = some ("5".data) ∧
    (read_buffer [] (">EMCEE> 5 <EMCEE<XYZ".data)).2 = [] ∧
    ([] : List Char) ≠ "XYZ".data := by
  refine ⟨by decide, by decide, by decide⟩

/-- C7 amended: when the drain step finds a complete sentinel-delimited
response it returns the captured payload and clears the ENTIRE buffer
(bytes after the end marker are discarded); otherwise the accumulated
buffer is kept. -/
theorem read_buffer_clears_buffer (buf data : List Char) :
    read_buffer buf data =
      (searchResult (buf ++ data),
       if (searchResult (buf ++ data)).isSome then [] else buf ++ data) := by
  unfold read_buffer
  cases h : searchResult (buf ++ data) <;> simp [h]

/-- C8 counterexample: a read returning zero bytes produces the
ordinary no-result outcome with the buffer unchanged - no fault value
exists on this path - and the command loop keeps retrying: three
successive zero-byte reads leave it still polling. -/
theorem zero_read_counterexample :
    read_buffer ("x".data) [] = (none, "x".data) ∧
    readRetry ("x".data) [[], [], []] = none := by
  refine ⟨by decide, by decide⟩

/-- C8 amended: a zero-byte read leaves the buffer unchanged and
returns the same no-result indication as data-not-yet-ready; it is not
signalled as an error and callers retry the read. -/
theorem zero_read_no_result (buf : List Char)
    (h : searchResult buf = none) : read_buffer buf [] = (none, buf) := by
  unfold read_buffer
  simp [h]

/-- Witness for the amended C8 theorem at a concrete buffer. -/
theorem zero_read_no_result_witness :
    read_buffer ("abc".data) [] = (none, "abc".data) :=
  zero_read_no_result ("abc".data) (by decide)

/-!
## Linkage expression parsing and parameter linking

Model of CombinedModel (xspec_emcee/xspec_pool.py).  Parameters are
mutable Python objects; object identity (which drives the de-duplication
in update_thawed and the shared-value semantics of linking) is modelled
by a pid field, and the mutable currentval attribute by a separate
store from pid to value.  The per-object prior attribute is modelled as
a function from the parameter to its prior.
-/

/-- Model parameter (xspec_emcee/xspec_model.py Par), restricted to
the fields the pool uses.  pid is the Python object identity. -/
structure Par where
  pid : Nat
  name : String
  model : String
  index : Int
  minval : ℚ
  maxval : ℚ
deriving DecidableEq

/-- Par._flatPrior: flat prior, -inf outside the parameter bounds. -/
def flatPrior (p : Par) (v : ℚ) : Score :=
  if v < p.minval ∨ p.maxval < v then Score.negInf else Score.fin 0

/-- Splitting on a separator character, as Python str.split(sep)
with a one-character separator. -/
def splitOnChar (sep : Char) : List Char → List (List Char)
  | [] => [[]]
  | c :: cs =>
    let r := splitOnChar sep cs
    if c = sep then [] :: r
    else
      match r with
      | [] => [[c]]
      | a :: as => (c :: a) :: as

/-- Decimal digit accumulation; none on any non-digit character. -/
def digitsToNat : List Char → Nat → Option Nat
  | [], acc => some acc
  | c :: cs, acc =>
    if c.isDigit then digitsToNat cs (acc * 10 + (c.toNat - 48)) else none

/-- Python int() on a string: strips whitespace, allows a sign, then
parses a non-empty run of decimal digits; anything else raises. -/
def pyInt (s : List Char) : Option Int :=
  match pyStrip s with
  | [] => none
  | c :: cs =>
    if c = '-' then
      match cs with
      | [] => none
      | _ => (digitsToNat cs 0).map (fun n => -(n : Int))
    else if c = '+' then
      match cs with
      | [] => none
      | _ => (digitsToNat cs 0).map (fun n => (n : Int))
    else (digitsToNat (c :: cs) 0).map (fun n => (n : Int))

/-- The model-name normalization in defpart: strip, empty means the
unnamed main model. -/
def pyName (s : List Char) : String :=
  if pyStrip s = [] then "unnamed" else String.mk (pyStrip s)

/-- CombinedModel.linkParameters.defpart: parse one side of a linkage
expression [xcmindex:][modelname:]paramindex with defaults xcmindex=1
and modelname unnamed; more than three parts or an unparsable integer
is an error (none). -/
def defpart (t : List Char) : Option (Int × String × Int) :=
  match splitOnChar ':' t with
  | [a, b, c] => do
    let g ← pyInt a
    let i ← pyInt c
    some (g, pyName b, i)
  | [b, c] => do
    let i ← pyInt c
    some (1, pyName b, i)
  | [c] => do
    let i ← pyInt c
    some (1, "unnamed", i)
  | _ => none

/-- Python sequence indexing: non-negative from the front, negative
from the back, out of range is an IndexError. -/
def pyIdx (len : Nat) (i : Int) : Option Nat :=
  if 0 ≤ i then
    if i < (len : Int) then some i.toNat else none
  else
    if 0 ≤ (len : Int) + i then some ((len : Int) + i).toNat else none

/-- CombinedModel.linkParameters.findindex: position of the first
parameter with the given model name and xspec index. -/
def findindex (params : List Par) (modname : String) (paramindex : Int) :
    Option Nat :=
  params.findIdx? (fun p => p.model = modname && p.index = paramindex)

/-- CombinedModel.update_thawed: concatenate the models' thawed lists,
keeping only the first occurrence of each parameter object. -/
def dedupPid : List Par → List Nat → List Par
  | [], _ => []
  | p :: ps, seen =>
    if p.pid ∈ seen then dedupPid ps seen
    else p :: dedupPid ps (p.pid :: seen)

def update_thawed (ms : List (List Par)) : List Par :=
  dedupPid ms.join []

/-- CombinedModel.updateParams: write the vector entries into the
currentval store of the combined thawed parameters, in order. -/
def updateParams (store : Nat → ℚ) (thawed : List Par) (vals : List ℚ) :
    Nat → ℚ :=
  (List.zip thawed vals).foldl
    (fun st pv => fun q => if q = pv.1.pid then pv.2 else st q) store

/-- CombinedModel.linkParameters: parse both sides, resolve both
parameters in their models' thawed lists, and overwrite the left
thawed slot with the right parameter object.  The diagnostic print
reads rthaw[lidx], which raises if lidx is out of range for the right
list, so that access is part of the success condition. -/
def linkParameters (ms : List (List Par)) (expr : String) :
    Option (List (List Par)) :=
  match splitOnChar '=' expr.data with
  | [l, r] =>
    match defpart l, defpart r with
    | some lp, some rp =>
      match pyIdx ms.length (lp.1 - 1), pyIdx ms.length (rp.1 - 1) with
      | some lmi, some rmi =>
        match ms.get? lmi, ms.get? rmi with
        | some lthaw, some rthaw =>
          match findindex lthaw lp.2.1 lp.2.2, findindex rthaw rp.2.1 rp.2.2 with
          | some lidx, some ridx =>
            match rthaw.get? lidx with
            | none => none
            | some _ =>
              match rthaw.get? ridx with
              | some rpar => some (ms.set lmi (lthaw.set lidx rpar))
              | none => none
          | _, _ => none
        | _, _ => none
      | _, _ => none
    | _, _ => none
  | _ => none

/-- C9 counterexample: a side consisting of a bare parameter index is
parsed with model name "unnamed", not "default" as the claim states. -/
theorem defpart_default_name_counterexample :
    defpart ("3".data) = some (1, "unnamed", 3) ∧ "unnamed" ≠ "default" := by
  refine ⟨by decide, by decide⟩

/-- C9 amended: a side that omits the group index defaults it to 1,
and a side that omits the model name (a bare index, or an empty name
field) defaults the model name to "unnamed". -/
theorem defpart_defaults (s : List Char) (g : Int) (nm : String) (i : Int)
    (hlen : (splitOnChar ':' s).length ≤ 2)
    (h : defpart s = some (g, nm, i)) :
    g = 1 ∧
    ((splitOnChar ':' s).length = 1 → nm = "unnamed") ∧
    (∀ b c : List Char, splitOnChar ':' s = [b, c] → pyStrip b = [] →
      nm = "unnamed") := by
  unfold defpart at h
  cases hs : splitOnChar ':' s with
  | nil => rw [hs] at h; simp at h
  | cons x xs =>
    cases xs with
    | nil =>
      rw [hs] at h
      cases hx : pyInt x with
      | none => simp [hx] at h
      | some v =>
        simp only [hx, Option.bind_eq_bind, Option.some_bind, Option.some.injEq,
          Prod.mk.injEq] at h
        refine ⟨h.1.symm, fun _ => h.2.1.symm, ?_⟩
        intro b c hbc
        simp at hbc
    | cons y ys =>
      cases ys with
      | nil =>
        rw [hs] at h
        cases hy : pyInt y with
        | none => simp [hy] at h
        | some v =>
          simp only [hy, Option.bind_eq_bind, Option.some_bind, Option.some.injEq,
            Prod.mk.injEq] at h
          refine ⟨h.1.symm, by simp, ?_⟩
          intro b c hbc htrim
          have hb : b = x := by
            have := hbc
            simp only [List.cons.injEq] at this
            exact this.1.symm
          subst hb
          rw [← h.2.1]
          simp [pyName, htrim]
      | cons z zs =>
        rw [hs] at hlen
        simp at hlen

def pidsOf (l : List Par) : List Nat := l.map Par.pid

theorem dedupPid_length (l : List Par) :
    ∀ seen : List Nat,
      (dedupPid l seen).length =
        ((pidsOf l).filter (fun x => decide (x ∉ seen))).toFinset.card := by
  induction l with
  | nil => intro seen; simp [dedupPid, pidsOf]
  | cons p ps ih =>
    intro seen
    by_cases h : p.pid ∈ seen
    · simp only [dedupPid, if_pos h, pidsOf, List.map_cons, List.filter_cons]
      have : (decide (p.pid ∉ seen)) = false := by simp [h]
      rw [this]
      simpa [pidsOf] using ih seen
    · simp only [dedupPid, if_neg h, List.length_cons, pidsOf, List.map_cons,
        List.filter_cons]
      have hdec : (decide (p.pid ∉ seen)) = true := by simp [h]
      rw [hdec]
      simp only [if_true, List.toFinset_cons]
      have hset :
          ((pidsOf ps).filter (fun x => decide (x ∉ p.pid :: seen))).toFinset =
            (((pidsOf ps).filter (fun x => decide (x ∉ seen))).toFinset).erase
              p.pid := by
        ext x
        simp only [List.mem_toFinset, List.mem_filter, Finset.mem_erase,
          decide_eq_true_eq, List.mem_cons]
        constructor
        · rintro ⟨hx, hns⟩
          push_neg at hns
          exact ⟨hns.1, hx, hns.2⟩
        · rintro ⟨hne, hx, hns⟩
          exact ⟨hx, by push_neg; exact ⟨hne, hns⟩⟩
      rw [ih (p.pid :: seen), hset]
      rw [show List.map Par.pid ps = pidsOf ps from rfl]
      set S := ((pidsOf ps).filter (fun x => decide (x ∉ seen))).toFinset with hS
      by_cases hm : p.pid ∈ S
      · rw [Finset.card_erase_of_mem hm]
        have : insert p.pid S = S := Finset.insert_eq_self.mpr hm
        rw [this]
        have : 1 ≤ S.card := Finset.card_pos.mpr ⟨p.pid, hm⟩
        omega
      · rw [Finset.erase_eq_self.mpr hm]
        rw [Finset.card_insert_of_not_mem hm]

theorem update_thawed_length (ms : List (List Par)) :
    (update_thawed ms).length = (pidsOf ms.join).toFinset.card := by
  unfold update_thawed
  rw [dedupPid_length]
  simp

theorem dedupPid_subset (l : List Par) :
    ∀ seen, ∀ p ∈ dedupPid l seen, p ∈ l := by
  induction l with
  | nil => intro seen p hp; simp [dedupPid] at hp
  | cons q qs ih =>
    intro seen p hp
    by_cases h : q.pid ∈ seen
    · simp only [dedupPid, if_pos h] at hp
      exact List.mem_cons_of_mem q (ih seen p hp)
    · simp only [dedupPid, if_neg h, List.mem_cons] at hp
      rcases hp with h1 | h2
      · exact h1 ▸ List.mem_cons_self q qs
      · exact List.mem_cons_of_mem q (ih _ p h2)

theorem dedupPid_pid_mem (l : List Par) :
    ∀ seen x, x ∈ pidsOf l → x ∉ seen →
      ∃ q ∈ dedupPid l seen, q.pid = x := by
  induction l with
  | nil => intro seen x hx; simp [pidsOf] at hx
  | cons p ps ih =>
    intro seen x hx hns
    by_cases hxp : x = p.pid
    · subst hxp
      rw [dedupPid]
      rw [if_neg hns]
      exact ⟨p, List.mem_cons_self _ _, rfl⟩
    · have hx2 : x ∈ pidsOf ps := by
        simp only [pidsOf, List.map_cons, List.mem_cons] at hx
        rcases hx with h1 | h2
        · exact absurd h1 hxp
        · exact h2
      by_cases h : p.pid ∈ seen
      · rw [dedupPid, if_pos h]
        exact ih seen x hx2 hns
      · rw [dedupPid, if_neg h]
        have hns2 : x ∉ p.pid :: seen := by
          simp only [List.mem_cons]
          push_neg
          exact ⟨hxp, hns⟩
        obtain ⟨q, hq, hqx⟩ := ih (p.pid :: seen) x hx2 hns2
        exact ⟨q, List.mem_cons_of_mem p hq, hqx⟩

theorem dedupPid_pids_nodup (l : List Par) :
    ∀ seen, (pidsOf (dedupPid l seen)).Nodup ∧
      ∀ x ∈ pidsOf (dedupPid l seen), x ∉ seen := by
  induction l with
  | nil => intro seen; simp [dedupPid, pidsOf]
  | cons p ps ih =>
    intro seen
    by_cases h : p.pid ∈ seen
    · simpa [dedupPid, if_pos h] using ih seen
    · obtain ⟨hnd, hni⟩ := ih (p.pid :: seen)
      rw [dedupPid, if_neg h]
      constructor
      · simp only [pidsOf, List.map_cons, List.nodup_cons]
        refine ⟨fun hc => ?_, hnd⟩
        have := hni p.pid hc
        simp at this
      · intro x hx
        simp only [pidsOf, List.map_cons, List.mem_cons] at hx
        rcases hx with h1 | h2
        · exact h1 ▸ h
        · have := hni x h2
          simp only [List.mem_cons] at this
          push_neg at this
          exact this.2

theorem list_set_split {α : Type} (l : List α) (i : Nat) (x y : α)
    (h : l.get? i = some y) :
    l = l.take i ++ y :: l.drop (i + 1) ∧
    l.set i x = l.take i ++ x :: l.drop (i + 1) := by
  induction l generalizing i with
  | nil => simp at h
  | cons a as ih =>
    cases i with
    | zero =>
      simp only [List.get?] at h
      injection h with h
      subst h
      simp
    | succ k =>
      simp only [List.get?] at h
      obtain ⟨h1, h2⟩ := ih k h
      constructor
      · simpa [List.take, List.drop] using congrArg (a :: ·) h1
      · simpa [List.set, List.take, List.drop] using congrArg (a :: ·) h2

theorem join_set_split (ms : List (List Par)) (i : Nat)
    (x y : List Par) (h : ms.get? i = some y) :
    ms.join = (ms.take i).join ++ y ++ (ms.drop (i + 1)).join ∧
    (ms.set i x).join =
      (ms.take i).join ++ x ++ (ms.drop (i + 1)).join := by
  obtain ⟨h1, h2⟩ := list_set_split ms i x y h
  constructor
  · conv_lhs => rw [h1]
    simp [List.join_append]
  · rw [h2]
    simp [List.join_append]

theorem updateParams_not_mem (thawed : List Par) :
    ∀ (vals : List ℚ) (store : Nat → ℚ) (x : Nat),
      x ∉ pidsOf thawed → updateParams store thawed vals x = store x := by
  induction thawed with
  | nil => intro vals store x _; simp [updateParams]
  | cons p ps ih =>
    intro vals store x hx
    cases vals with
    | nil => simp [updateParams]
    | cons v vs =>
      simp only [pidsOf, List.map_cons, List.mem_cons] at hx
      push_neg at hx
      simp only [updateParams, List.zip_cons_cons, List.foldl_cons]
      have := ih vs (fun q => if q = p.pid then v else store q) x hx.2
      simp only [updateParams] at this
      rw [this]
      simp [hx.1]

theorem updateParams_get (k : Nat) :
    ∀ (thawed : List Par) (vals : List ℚ) (store : Nat → ℚ) (rp : Par),
      (pidsOf thawed).Nodup → thawed.get? k = some rp → k < vals.length →
      updateParams store thawed vals rp.pid = vals.getD k 0 := by
  induction k with
  | zero =>
    intro thawed vals store rp hnd hget hk
    cases thawed with
    | nil => simp at hget
    | cons p ps =>
      simp only [List.get?] at hget
      injection hget with hget
      rw [← hget]
      cases vals with
      | nil => simp at hk
      | cons v vs =>
        simp only [updateParams, List.zip_cons_cons, List.foldl_cons]
        simp only [pidsOf, List.map_cons, List.nodup_cons] at hnd
        have := updateParams_not_mem ps vs
          (fun q => if q = p.pid then v else store q) p.pid hnd.1
        simp only [updateParams] at this
        rw [this]
        simp
  | succ n ih =>
    intro thawed vals store rp hnd hget hk
    cases thawed with
    | nil => simp at hget
    | cons p ps =>
      simp only [List.get?] at hget
      cases vals with
      | nil => simp at hk
      | cons v vs =>
        simp only [updateParams, List.zip_cons_cons, List.foldl_cons]
        simp only [pidsOf, List.map_cons, List.nodup_cons] at hnd
        have := ih ps vs (fun q => if q = p.pid then v else store q) rp hnd.2
          hget (by simpa using hk)
        simp only [updateParams] at this
        rw [this]
        simp

/-- C5: for a successful link between two distinct thawed parameters of
two models, the combined thawed list afterwards is exactly one entry
shorter than before, the left slot now holds the right parameter
object, and updating the combined vector writes the shared value into
that object - hence into both models' views of the linked parameter. -/
theorem linkParameters_dedup_and_shared_write
    (ms : List (List Par)) (expr : String) (l r : List Char)
    (lg rg : Int) (lname rname : String) (lpi rpi : Int)
    (lmi rmi : Nat) (lthaw rthaw : List Par) (lidx ridx : Nat)
    (lpar rpar ppar : Par)
    (hsplit : splitOnChar '=' expr.data = [l, r])
    (hdl : defpart l = some (lg, lname, lpi))
    (hdr : defpart r = some (rg, rname, rpi))
    (hgl : pyIdx ms.length (lg - 1) = some lmi)
    (hgr : pyIdx ms.length (rg - 1) = some rmi)
    (hml : ms.get? lmi = some lthaw)
    (hmr : ms.get? rmi = some rthaw)
    (hfl : findindex lthaw lname lpi = some lidx)
    (hfr : findindex rthaw rname rpi = some ridx)
    (hpr : rthaw.get? lidx = some ppar)
    (hrp : rthaw.get? ridx = some rpar)
    (hlp : lthaw.get? lidx = some lpar)
    (hne : lpar.pid ≠ rpar.pid)
    (hcount : ((ms.join).map Par.pid).count lpar.pid = 1)
    (hcoh : ∀ p ∈ ms.join, ∀ q ∈ ms.join, p.pid = q.pid → p = q) :
    linkParameters ms expr = some (ms.set lmi (lthaw.set lidx rpar)) ∧
    (update_thawed (ms.set lmi (lthaw.set lidx rpar))).length + 1 =
      (update_thawed ms).length ∧
    (lthaw.set lidx rpar).get? lidx = some rpar ∧
    ∃ k, (update_thawed (ms.set lmi (lthaw.set lidx rpar))).get? k = some rpar ∧
      ∀ (store : Nat → ℚ) (vals : List ℚ), k < vals.length →
        updateParams store (update_thawed (ms.set lmi (lthaw.set lidx rpar)))
          vals rpar.pid = vals.getD k 0 := by
  have hlink : linkParameters ms expr =
      some (ms.set lmi (lthaw.set lidx rpar)) := by
    unfold linkParameters
    rw [hsplit]
    simp only [hdl, hdr, hgl, hgr, hml, hmr, hfl, hfr, hpr, hrp]
  have hlidx : lidx < lthaw.length := by
    by_contra hc
    push_neg at hc
    rw [List.get?_eq_none.mpr hc] at hlp
    simp at hlp
  obtain ⟨hj, hj2⟩ := join_set_split ms lmi (lthaw.set lidx rpar) lthaw hml
  obtain ⟨ht, ht2⟩ := list_set_split lthaw lidx rpar lpar hlp
  -- the common part of both joins, as pid lists
  set J1 := (ms.take lmi).join with hJ1
  set J2 := (ms.drop (lmi + 1)).join with hJ2
  set t1 := lthaw.take lidx with ht1
  set t2 := lthaw.drop (lidx + 1) with ht2d
  set A := pidsOf J1 ++ pidsOf t1 with hA
  set B := pidsOf t2 ++ pidsOf J2 with hB
  have hpids1 : pidsOf ms.join = A ++ lpar.pid :: B := by
    rw [hj, ht]
    simp [pidsOf, hA, hB, List.append_assoc]
  have hpids2 : pidsOf (ms.set lmi (lthaw.set lidx rpar)).join =
      A ++ rpar.pid :: B := by
    rw [hj2, ht2]
    simp [pidsOf, hA, hB, List.append_assoc]
  have hlpAB : lpar.pid ∉ A ++ B := by
    have hc : (pidsOf ms.join).count lpar.pid = 1 := hcount
    rw [hpids1] at hc
    rw [List.count_append, List.count_cons_self] at hc
    intro hmem
    rw [List.mem_append] at hmem
    rcases hmem with ha | hb
    · have := List.count_pos_iff_mem.mpr ha
      omega
    · have := List.count_pos_iff_mem.mpr hb
      omega
  have hrmemJ : rpar ∈ ms.join := by
    have h1 : rthaw ∈ ms := List.get?_mem hmr
    have h2 : rpar ∈ rthaw := List.get?_mem hrp
    exact List.mem_join.mpr ⟨rthaw, h1, h2⟩
  have hrAB : rpar.pid ∈ A ++ B := by
    have : rpar.pid ∈ pidsOf ms.join := List.mem_map_of_mem Par.pid hrmemJ
    rw [hpids1] at this
    rw [List.mem_append] at this ⊢
    rcases this with h1 | h2
    · exact Or.inl h1
    · rw [List.mem_cons] at h2
      rcases h2 with h3 | h4
      · exact absurd h3.symm hne
      · exact Or.inr h4
  have hfins1 : (pidsOf ms.join).toFinset =
      insert lpar.pid (A ++ B).toFinset := by
    rw [hpids1]
    rw [List.toFinset_append, List.toFinset_cons, Finset.union_insert,
      ← List.toFinset_append]
  have hfins2 : (pidsOf (ms.set lmi (lthaw.set lidx rpar)).join).toFinset =
      (A ++ B).toFinset := by
    rw [hpids2]
    rw [List.toFinset_append, List.toFinset_cons, Finset.union_insert,
      ← List.toFinset_append]
    exact Finset.insert_eq_self.mpr (List.mem_toFinset.mpr hrAB)
  have hlen : (update_thawed (ms.set lmi (lthaw.set lidx rpar))).length + 1 =
      (update_thawed ms).length := by
    rw [update_thawed_length, update_thawed_length, hfins1, hfins2]
    rw [Finset.card_insert_of_not_mem (fun hc => hlpAB (List.mem_toFinset.mp hc))]
  have hslot : (lthaw.set lidx rpar).get? lidx = some rpar :=
    List.get?_set_eq_of_lt rpar hlidx
  -- membership of the right parameter in the new combined list
  have hrmem2 : rpar ∈ (ms.set lmi (lthaw.set lidx rpar)).join := by
    rw [hj2, ht2]
    simp
  have hsubJ : ∀ p ∈ (ms.set lmi (lthaw.set lidx rpar)).join, p ∈ ms.join := by
    intro p hp
    rw [hj2, ht2] at hp
    rw [hj, ht]
    simp only [List.mem_append, List.mem_cons] at hp ⊢
    rcases hp with (h1 | (h2 | (h3 | h4))) | h5
    · tauto
    · tauto
    · rw [h3]
      have hmem : rpar ∈ J1 ++ lthaw ++ J2 := by rw [← hj]; exact hrmemJ
      rw [ht] at hmem
      simp only [List.mem_append, List.mem_cons] at hmem
      tauto
    · tauto
    · tauto
  obtain ⟨q, hq, hqpid⟩ := dedupPid_pid_mem
    ((ms.set lmi (lthaw.set lidx rpar)).join) [] rpar.pid
    (List.mem_map_of_mem Par.pid hrmem2) (by simp)
  have hq2 : q ∈ (ms.set lmi (lthaw.set lidx rpar)).join :=
    dedupPid_subset _ [] q hq
  have hqr : q = rpar := hcoh q (hsubJ q hq2) rpar hrmemJ hqpid
  subst hqr
  obtain ⟨k, hk⟩ := List.get?_of_mem hq
  refine ⟨hlink, hlen, hslot, k, hk, ?_⟩
  intro store vals hkv
  exact updateParams_get k (update_thawed (ms.set lmi (lthaw.set lidx q)))
    vals store q ((dedupPid_pids_nodup _ []).1) hk hkv

/-- Concrete parameter of model "ma" used in witnesses. -/
def parA : Par := ⟨0, "p", "ma", 1, 0, 1⟩

/-- Concrete parameter of model "mb" used in witnesses. -/
def parB : Par := ⟨1, "p", "mb", 2, 0, 1⟩

/-- Witness for the C5 theorem: linking mb:2 to ma:1 across two
one-parameter models. -/
theorem linkParameters_dedup_and_shared_write_witness :
    linkParameters [[parA], [parB]] "2:mb:2=1:ma:1" =
      some ([[parA], [parB]].set 1 ([parB].set 0 parA)) ∧
    (update_thawed ([[parA], [parB]].set 1 ([parB].set 0 parA))).length + 1 =
      (update_thawed [[parA], [parB]]).length ∧
    ([parB].set 0 parA).get? 0 = some parA ∧
    ∃ k, (update_thawed ([[parA], [parB]].set 1 ([parB].set 0 parA))).get? k =
        some parA ∧
      ∀ (store : Nat → ℚ) (vals : List ℚ), k < vals.length →
        updateParams store
          (update_thawed ([[parA], [parB]].set 1 ([parB].set 0 parA)))
          vals parA.pid = vals.getD k 0 :=
  linkParameters_dedup_and_shared_write
    [[parA], [parB]] "2:mb:2=1:ma:1" ("2:mb:2".data) ("1:ma:1".data)
    2 1 "mb" "ma" 2 1 1 0 [parB] [parA] 0 0 parB parA parA
    (by decide) (by decide) (by decide) (by decide) (by decide) (by decide)
    (by decide) (by decide) (by decide) (by decide) (by decide) (by decide)
    (by decide) (by decide) (by decide)

/-!
## Prior evaluation and the dispatch scheduler

Model of ProcState / XspecPool.map (xspec_emcee/xspec_pool.py).  Worker
responses are abstracted by a statistic oracle per model (the value the
worker prints for a given parameter-set index); the nondeterminism of
select() and of incomplete reads is an explicit schedule saying, for each
while-loop pass and each model state, which busy filenos complete a
result during that _check call.  A run succeeds (some) when the loop
reaches the all-done exit within the schedule.
-/

/-- CombinedModel.prior: sum of the per-parameter priors over the
thawed parameters zipped with the input vector; pr is the per-object
prior attribute. -/
def combinedPrior (pr : Par → ℚ → Score) (thawed : List Par)
    (vals : List ℚ) : Score :=
  (List.zip thawed vals).foldl (fun a pv => a + pr pv.1 pv.2) 0

/-- ProcState for one model: indices still to process, free worker
filenos, and the fileno-to-index map of jobs in flight. -/
structure ProcState where
  toprocess : List Nat
  free : List Nat
  processing : List (Nat × Nat)
deriving DecidableEq

def pend (s : ProcState) : List Nat :=
  s.toprocess ++ s.processing.map Prod.snd

def keysOf (s : ProcState) : List Nat := s.processing.map Prod.fst

/-- Python list.pop(): remove and return the last element. -/
def popLast : List Nat → Option (List Nat × Nat)
  | [] => none
  | [x] => some ([], x)
  | x :: y :: xs =>
    (popLast (y :: xs)).map (fun r => (x :: r.1, r.2))

/-- del processing[fileno]. -/
def removeKey (f : Nat) : List (Nat × Nat) → List (Nat × Nat)
  | [] => []
  | p :: ps => if p.1 = f then removeKey f ps else p :: removeKey f ps

/-- likes[idx] += v. -/
def setAdd (l : List Score) (i : Nat) (v : Score) : List Score :=
  match l.get? i with
  | some x => l.set i (x + v)
  | none => l

/-- Likelihood contribution of one worker statistic: -0.5 * stat. -/
def contrib (st : Nat → ℚ) (i : Nat) : Score :=
  Score.fin (-(1/2) * st i)

/-- ProcState._check: for each ready fileno whose read completes a
result, add the likelihood into that job's accumulator entry, free the
worker and drop the job. -/
def doCheck (st : Nat → ℚ) (s : ProcState) (likes : List Score) :
    List Nat → ProcState × List Score
  | [] => (s, likes)
  | f :: fs =>
    match s.processing.lookup f with
    | some idx =>
      doCheck st ⟨s.toprocess, s.free ++ [f], removeKey f s.processing⟩
        (setAdd likes idx (contrib st idx)) fs
    | none => doCheck st s likes fs

/-- ProcState.loop_iter: send a job when a worker is free and work
remains, else poll busy workers; afterwards report whether this state
is finished.  The returned log extends the dispatch log with the index
of any vector sent to a worker this cycle. -/
def loopIter (st : Nat → ℚ) (s : ProcState) (likes : List Score)
    (ready : List Nat) (log : List Nat) :
    ProcState × List Score × List Nat × Bool :=
  let r :=
    if s.free.isEmpty = false ∧ s.toprocess.isEmpty = false then
      match popLast s.toprocess, popLast s.free with
      | some tp, some fr =>
        (ProcState.mk tp.1 fr.1 (s.processing ++ [(fr.2, tp.2)]), likes,
          log ++ [tp.2])
      | _, _ => (s, likes, log)
    else if s.processing.isEmpty = false then
      let dc := doCheck st s likes ready
      (dc.1, dc.2, log)
    else (s, likes, log)
  (r.1, r.2.1, r.2.2, r.1.toprocess.isEmpty && r.1.processing.isEmpty)

/-- One pass of the while-loop body in XspecPool.map: run loop_iter on
every model state in order, threading the accumulator and the log, and
conjoin the done flags. -/
def iterStates (stats : List (Nat → ℚ)) (states : List ProcState)
    (likes : List Score) (readys : List (List Nat)) (log : List Nat)
    (ad : Bool) : List ProcState × List Score × List Nat × Bool :=
  match stats, states with
  | st :: sts, s :: ss =>
    let r := loopIter st s likes (readys.headD []) log
    let r2 := iterStates sts ss r.2.1 readys.tail r.2.2.1 (ad && r.2.2.2)
    (r.1 :: r2.1, r2.2.1, r2.2.2.1, r2.2.2.2)
  | _, _ => ([], likes, log, ad)

/-- The while-loop of XspecPool.map, driven by the schedule; none if
the schedule runs out before every state is done. -/
def runPool (stats : List (Nat → ℚ)) :
    List (List (List Nat)) → List ProcState → List Score → List Nat →
    Option (List Score × List Nat)
  | [], _, _, _ => none
  | rd :: rest, states, likes, log =>
    let it := iterStates stats states likes rd log true
    if it.2.2.2 then some (it.2.1, it.2.2.1)
    else runPool stats rest it.1 it.2.1 it.2.2.1

/-- A worker group: the filenos of its xspec processes and the
statistic its workers report for each parameter-set index. -/
structure XModel where
  workers : List Nat
  stat : Nat → ℚ

/-- Indices of parameter sets with finite prior, in ascending order
(N.nonzero of N.isfinite). -/
def toprocess0 (likes : List Score) : List Nat :=
  (List.range likes.length).filter
    (fun i => (likes.getD i Score.negInf).isFinite)

/-- XspecPool.map: compute the priors, build one ProcState per model
over the finite-prior indices, and drive all states to completion.
The first argument is emcee's function argument, which is never
called.  Returns the accumulator and the dispatch log. -/
def XspecPool.map {α : Sort _} (dummyfunc : α) (pr : Par → ℚ → Score)
    (thawed : List Par) (models : List XModel)
    (paramlist : List (List ℚ)) (sched : List (List (List Nat))) :
    Option (List Score × List Nat) :=
  let likes0 := paramlist.map (combinedPrior pr thawed)
  runPool (models.map XModel.stat) sched
    (models.map (fun m => ProcState.mk (toprocess0 likes0) m.workers []))
    likes0 []

/-- Total likelihood of one vector over all worker groups. -/
def totalLike (i : Nat) : List XModel → Score
  | [] => 0
  | m :: rest => contrib m.stat i + totalLike i rest

/-- The specified score of vector i: its prior plus the sum over all
groups of -0.5 times the group statistic. -/
def scoreOf (pr : Par → ℚ → Score) (thawed : List Par)
    (models : List XModel) (paramlist : List (List ℚ)) (i : Nat) : Score :=
  combinedPrior pr thawed (paramlist.getD i []) + totalLike i models

/-- Likelihood contributions already folded into the accumulator:
one term per model state, skipped while the index is still pending
there. -/
def sumSkip (i : Nat) : List ((Nat → ℚ) × ProcState) → Score
  | [] => 0
  | p :: ps =>
    (if i ∈ pend p.2 then (0 : Score) else contrib p.1 i) + sumSkip i ps

theorem setAdd_length (l : List Score) (i : Nat) (v : Score) :
    (setAdd l i v).length = l.length := by
  unfold setAdd
  cases h : l.get? i <;> simp

theorem setAdd_getD_eq (l : List Score) (i : Nat) (v : Score)
    (hi : i < l.length) :
    (setAdd l i v).getD i Score.negInf = l.getD i Score.negInf + v := by
  unfold setAdd
  cases h : l.get? i with
  | none =>
    rw [List.get?_eq_none] at h
    omega
  | some x =>
    rw [List.getD_eq_getD_get?, List.getD_eq_getD_get?,
      List.get?_set_eq_of_lt _ hi, h]
    rfl

theorem setAdd_getD_ne (l : List Score) (i : Nat) (v : Score) (j : Nat)
    (h : j ≠ i) :
    (setAdd l i v).getD j Score.negInf = l.getD j Score.negInf := by
  unfold setAdd
  cases hg : l.get? i with
  | none => rfl
  | some x =>
    rw [List.getD_eq_getD_get?, List.getD_eq_getD_get?,
      List.get?_set_ne _ _ (fun hc => h hc.symm)]

theorem popLast_some (l : List Nat) :
    ∀ (l' : List Nat) (x : Nat), popLast l = some (l', x) → l = l' ++ [x] := by
  induction l with
  | nil => intro l' x h; simp [popLast] at h
  | cons a as ih =>
    intro l' x h
    cases as with
    | nil =>
      simp only [popLast, Option.some.injEq, Prod.mk.injEq] at h
      rw [← h.1, ← h.2]
      simp
    | cons b bs =>
      simp only [popLast, Option.map_eq_some'] at h
      obtain ⟨r, hr, hrx⟩ := h
      have hbs := ih r.1 r.2 (by rw [hr])
      rw [Prod.mk.injEq] at hrx
      rw [← hrx.1, ← hrx.2]
      simp only [List.cons_append]
      rw [← hbs]

theorem popLast_isSome (l : List Nat) (h : ¬ l = []) :
    ∃ r, popLast l = some r := by
  induction l with
  | nil => exact absurd rfl h
  | cons a as ih =>
    cases as with
    | nil => exact ⟨([], a), rfl⟩
    | cons b bs =>
      obtain ⟨r, hr⟩ := ih (by simp)
      exact ⟨(a :: r.1, r.2), by simp [popLast, hr]⟩

theorem removeKey_not_mem (f : Nat) :
    ∀ ps : List (Nat × Nat), f ∉ ps.map Prod.fst → removeKey f ps = ps := by
  intro ps
  induction ps with
  | nil => intro _; rfl
  | cons p rest ih =>
    intro h
    simp only [List.map_cons, List.mem_cons] at h
    push_neg at h
    have hne : ¬ p.1 = f := fun hc => h.1 hc.symm
    simp only [removeKey, if_neg hne]
    rw [ih h.2]

theorem lookup_split (f : Nat) :
    ∀ (ps : List (Nat × Nat)) (idx : Nat),
      (ps.map Prod.fst).Nodup → ps.lookup f = some idx →
      ∃ l1 l2, ps = l1 ++ (f, idx) :: l2 ∧
        f ∉ l1.map Prod.fst ∧ f ∉ l2.map Prod.fst ∧
        removeKey f ps = l1 ++ l2 := by
  intro ps
  induction ps with
  | nil => intro idx _ h; simp [List.lookup] at h
  | cons p rest ih =>
    intro idx hnd hl
    obtain ⟨k, v⟩ := p
    simp only [List.map_cons, List.nodup_cons] at hnd
    by_cases hf : k = f
    · subst hf
      have hlv : List.lookup k ((k, v) :: rest) = some v := by
        simp [List.lookup]
      rw [hlv] at hl
      injection hl with hl
      subst hl
      refine ⟨[], rest, by simp, by simp, hnd.1, ?_⟩
      simp only [removeKey, if_pos rfl, List.nil_append]
      exact removeKey_not_mem k rest hnd.1
    · have hb : (f == k) = false := by
        simp only [beq_eq_false_iff_ne, ne_eq]
        exact fun hc => hf hc.symm
      have hskip : List.lookup f ((k, v) :: rest) = List.lookup f rest := by
        simp [List.lookup, hb]
      rw [hskip] at hl
      obtain ⟨l1, l2, hps, h1, h2, hrk⟩ := ih idx hnd.2 hl
      refine ⟨(k, v) :: l1, l2, by simp [hps], ?_, h2, ?_⟩
      · simp only [List.map_cons, List.mem_cons]
        push_neg
        refine ⟨fun hc => hf hc.symm, h1⟩
      · simp only [removeKey, if_neg hf]
        simp [hrk]

theorem doCheck_spec (st : Nat → ℚ) :
    ∀ (ready : List Nat) (s : ProcState) (likes : List Score),
      (s.free ++ keysOf s).Nodup →
      (pend s).Nodup →
      (∀ j ∈ pend s, j < likes.length) →
      (doCheck st s likes ready).1.toprocess = s.toprocess ∧
      (doCheck st s likes ready).2.length = likes.length ∧
      (∀ j ∈ pend (doCheck st s likes ready).1, j ∈ pend s) ∧
      (pend (doCheck st s likes ready).1).Nodup ∧
      ((doCheck st s likes ready).1.free ++
          keysOf (doCheck st s likes ready).1).Perm (s.free ++ keysOf s) ∧
      (∀ f ∈ keysOf (doCheck st s likes ready).1, f ∈ keysOf s) ∧
      (∀ f ∈ (doCheck st s likes ready).1.free, f ∈ s.free ∨ f ∈ keysOf s) ∧
      (∀ i, (doCheck st s likes ready).2.getD i Score.negInf =
        likes.getD i Score.negInf +
          (if i ∈ pend s ∧ i ∉ pend (doCheck st s likes ready).1
           then contrib st i else 0)) := by
  intro ready
  induction ready with
  | nil =>
    intro s likes hwf hnd hb
    refine ⟨rfl, rfl, fun j hj => hj, hnd, List.Perm.refl _,
      fun f hf => hf, fun f hf => Or.inl hf, ?_⟩
    intro i
    have hni : ¬ (i ∈ pend s ∧ i ∉ pend (doCheck st s likes []).1) :=
      fun hc => hc.2 hc.1
    rw [if_neg hni, add_zero]
    rfl
  | cons f fs ih =>
    intro s likes hwf hnd hb
    cases hl : s.processing.lookup f with
    | none =>
      have heq : doCheck st s likes (f :: fs) = doCheck st s likes fs := by
        simp only [doCheck, hl]
      rw [heq]
      exact ih s likes hwf hnd hb
    | some idx =>
      have hkeysnd : (s.processing.map Prod.fst).Nodup :=
        hwf.of_append_right
      obtain ⟨l1, l2, hps, hf1, hf2, hrk⟩ := lookup_split f s.processing idx
        hkeysnd hl
      have heq : doCheck st s likes (f :: fs) =
          doCheck st (ProcState.mk s.toprocess (s.free ++ [f])
            (removeKey f s.processing)) (setAdd likes idx (contrib st idx))
            fs := by
        simp only [doCheck, hl]
      rw [heq]
      set s1 : ProcState := ProcState.mk s.toprocess (s.free ++ [f])
        (removeKey f s.processing) with hs1
      set likes1 := setAdd likes idx (contrib st idx) with hlikes1
      -- decompositions of pending lists and key lists
      have hpend : pend s = s.toprocess ++
          (l1.map Prod.snd ++ idx :: l2.map Prod.snd) := by
        unfold pend
        rw [hps]
        simp
      have hpend1 : pend s1 = s.toprocess ++
          (l1.map Prod.snd ++ l2.map Prod.snd) := by
        unfold pend
        rw [hs1]
        simp only [hrk]
        simp
      have hkeys : keysOf s = l1.map Prod.fst ++ f :: l2.map Prod.fst := by
        unfold keysOf
        rw [hps]
        simp
      have hkeys1 : keysOf s1 = l1.map Prod.fst ++ l2.map Prod.fst := by
        unfold keysOf
        rw [hs1]
        simp only [hrk]
        simp
      have hpermP : (pend s).Perm (idx :: pend s1) := by
        rw [hpend, hpend1]
        have h1 : (l1.map Prod.snd ++ idx :: l2.map Prod.snd).Perm
            (idx :: (l1.map Prod.snd ++ l2.map Prod.snd)) := List.perm_middle
        have h2 := h1.append_left s.toprocess
        have h3 : (s.toprocess ++
            idx :: (l1.map Prod.snd ++ l2.map Prod.snd)).Perm
            (idx :: (s.toprocess ++ (l1.map Prod.snd ++ l2.map Prod.snd))) :=
          List.perm_middle
        exact h2.trans h3
      have hndcons : (idx :: pend s1).Nodup := hpermP.nodup_iff.mp hnd
      have hidxnot1 : idx ∉ pend s1 := (List.nodup_cons.mp hndcons).1
      have hnd1 : (pend s1).Nodup := (List.nodup_cons.mp hndcons).2
      have hidxmem : idx ∈ pend s :=
        hpermP.mem_iff.mpr (List.mem_cons_self idx _)
      have hidxlt : idx < likes.length := hb idx hidxmem
      have hsub1 : ∀ j ∈ pend s1, j ∈ pend s := by
        intro j hj
        exact hpermP.mem_iff.mpr (List.mem_cons_of_mem idx hj)
      have hmemiff : ∀ i, i ≠ idx → (i ∈ pend s ↔ i ∈ pend s1) := by
        intro i hi
        rw [hpermP.mem_iff]
        simp [hi]
      have hperm : (s1.free ++ keysOf s1).Perm (s.free ++ keysOf s) := by
        rw [hkeys, hkeys1, hs1]
        simp only
        have h1 : (s.free ++ [f]) ++ (l1.map Prod.fst ++ l2.map Prod.fst)
            = s.free ++ (f :: (l1.map Prod.fst ++ l2.map Prod.fst)) := by simp
        rw [h1]
        exact (List.perm_middle.symm).append_left s.free
      have hwf1 : (s1.free ++ keysOf s1).Nodup :=
        hperm.nodup_iff.mpr hwf
      have hb1 : ∀ j ∈ pend s1, j < likes1.length := by
        intro j hj
        rw [hlikes1, setAdd_length]
        exact hb j (hsub1 j hj)
      obtain ⟨c1, c2, c3, c4, c5, c6, c7, c8⟩ := ih s1 likes1 hwf1 hnd1 hb1
      refine ⟨?_, ?_, ?_, c4, ?_, ?_, ?_, ?_⟩
      · rw [c1, hs1]
      · rw [c2, hlikes1, setAdd_length]
      · exact fun j hj => hsub1 j (c3 j hj)
      · exact c5.trans hperm
      · intro g hg
        have := c6 g hg
        rw [hkeys1] at this
        rw [hkeys]
        simp only [List.mem_append, List.mem_cons] at this ⊢
        tauto
      · intro g hg
        rcases c7 g hg with h1 | h2
        · rw [hs1] at h1
          simp only [List.mem_append, List.mem_singleton] at h1
          rcases h1 with h3 | h4
          · exact Or.inl h3
          · right
            rw [hkeys, h4]
            simp
        · right
          have := h2
          rw [hkeys1] at this
          rw [hkeys]
          simp only [List.mem_append, List.mem_cons] at this ⊢
          tauto
      · intro i
        have h8 := c8 i
        by_cases hi : i = idx
        · subst hi
          have hl1 : likes1.getD i Score.negInf =
              likes.getD i Score.negInf + contrib st i := by
            rw [hlikes1]
            exact setAdd_getD_eq likes i (contrib st i) hidxlt
          have hnot1 : i ∉ pend s1 := hidxnot1
          have hflip1 : (if i ∈ pend s1 ∧ i ∉ pend (doCheck st s1 likes1 fs).1
              then contrib st i else 0) = 0 := by
            rw [if_neg]
            intro hc
            exact hnot1 hc.1
          have hnotdc : i ∉ pend (doCheck st s1 likes1 fs).1 :=
            fun hc => hnot1 (c3 i hc)
          rw [h8, hflip1, hl1, add_zero]
          rw [if_pos ⟨hidxmem, hnotdc⟩]
        · have hl1 : likes1.getD i Score.negInf = likes.getD i Score.negInf := by
            rw [hlikes1]
            exact setAdd_getD_ne likes idx (contrib st idx) i hi
          rw [h8, hl1]
          by_cases hm : i ∈ pend s1 ∧ i ∉ pend (doCheck st s1 likes1 fs).1
          · rw [if_pos hm, if_pos ⟨(hmemiff i hi).mpr hm.1, hm.2⟩]
          · rw [if_neg hm, if_neg]
            intro hc
            exact hm ⟨(hmemiff i hi).mp hc.1, hc.2⟩

theorem loopIter_spec (st : Nat → ℚ) (s : ProcState) (likes : List Score)
    (ready log : List Nat)
    (hwf : (s.free ++ keysOf s).Nodup)
    (hnd : (pend s).Nodup)
    (hb : ∀ j ∈ pend s, j < likes.length) :
    ((loopIter st s likes ready log).1.free ++
        keysOf (loopIter st s likes ready log).1).Perm (s.free ++ keysOf s) ∧
    (pend (loopIter st s likes ready log).1).Nodup ∧
    (∀ j ∈ pend (loopIter st s likes ready log).1, j ∈ pend s) ∧
    (loopIter st s likes ready log).2.1.length = likes.length ∧
    (∀ i, (loopIter st s likes ready log).2.1.getD i Score.negInf =
      likes.getD i Score.negInf +
        (if i ∈ pend s ∧ i ∉ pend (loopIter st s likes ready log).1
         then contrib st i else 0)) ∧
    (∀ j ∈ (loopIter st s likes ready log).2.2.1, j ∈ log ∨ j ∈ pend s) ∧
    ((loopIter st s likes ready log).2.2.2 = true →
      pend (loopIter st s likes ready log).1 = []) ∧
    (∀ f ∈ keysOf (loopIter st s likes ready log).1,
      f ∈ keysOf s ∨ f ∈ s.free) ∧
    (∀ f ∈ (loopIter st s likes ready log).1.free,
      f ∈ s.free ∨ f ∈ keysOf s) := by
  by_cases hc1 : s.free.isEmpty = false ∧ s.toprocess.isEmpty = false
  · -- _send_job branch
    have htpne : ¬ s.toprocess = [] := by
      intro hc
      rw [hc] at hc1
      simp at hc1
    have hfne : ¬ s.free = [] := by
      intro hc
      rw [hc] at hc1
      simp at hc1
    obtain ⟨tpp, htp⟩ := popLast_isSome s.toprocess htpne
    obtain ⟨frp, hfr⟩ := popLast_isSome s.free hfne
    obtain ⟨tp', pi⟩ := tpp
    obtain ⟨fr', fn⟩ := frp
    have hstp : s.toprocess = tp' ++ [pi] := popLast_some _ _ _ htp
    have hsfr : s.free = fr' ++ [fn] := popLast_some _ _ _ hfr
    have hL : loopIter st s likes ready log =
        (ProcState.mk tp' fr' (s.processing ++ [(fn, pi)]), likes,
          log ++ [pi],
          tp'.isEmpty && (s.processing ++ [(fn, pi)]).isEmpty) := by
      simp only [loopIter, if_pos hc1, htp, hfr]
    rw [hL]
    have hpendperm :
        (pend (ProcState.mk tp' fr' (s.processing ++ [(fn, pi)]))).Perm
          (pend s) := by
      unfold pend
      simp only [List.map_append, List.map_cons, List.map_nil]
      rw [hstp]
      have h1 : (List.map Prod.snd s.processing ++ [pi]).Perm
          ([pi] ++ List.map Prod.snd s.processing) := List.perm_append_comm
      have h2 := h1.append_left tp'
      refine h2.trans ?_
      rw [show tp' ++ ([pi] ++ List.map Prod.snd s.processing) =
        (tp' ++ [pi]) ++ List.map Prod.snd s.processing by simp]
    have hkperm : (fr' ++ keysOf (ProcState.mk tp' fr'
        (s.processing ++ [(fn, pi)]))).Perm (s.free ++ keysOf s) := by
      unfold keysOf
      simp only [List.map_append, List.map_cons, List.map_nil]
      rw [hsfr]
      have h1 : (List.map Prod.fst s.processing ++ [fn]).Perm
          ([fn] ++ List.map Prod.fst s.processing) := List.perm_append_comm
      have h2 := h1.append_left fr'
      refine h2.trans ?_
      rw [show fr' ++ ([fn] ++ List.map Prod.fst s.processing) =
        (fr' ++ [fn]) ++ List.map Prod.fst s.processing by simp]
    refine ⟨hkperm, hpendperm.nodup_iff.mpr hnd,
      fun j hj => hpendperm.mem_iff.mp hj, rfl, ?_, ?_, ?_, ?_, ?_⟩
    · intro i
      have hni : ¬ (i ∈ pend s ∧
          i ∉ pend (ProcState.mk tp' fr' (s.processing ++ [(fn, pi)]))) := by
        intro hc
        exact hc.2 (hpendperm.mem_iff.mpr hc.1)
      rw [if_neg hni, add_zero]
    · intro j hj
      rw [List.mem_append] at hj
      rcases hj with h1 | h2
      · exact Or.inl h1
      · right
        rw [List.mem_singleton] at h2
        subst h2
        unfold pend
        rw [hstp]
        simp
    · intro hdone
      rw [Bool.and_eq_true] at hdone
      have := hdone.2
      simp at this
    · intro g hg
      unfold keysOf at hg
      simp only [List.map_append, List.map_cons, List.map_nil,
        List.mem_append, List.mem_singleton] at hg
      rcases hg with h1 | h2
      · exact Or.inl h1
      · right
        rw [hsfr, h2]
        simp
    · intro g hg
      left
      rw [hsfr]
      simp only [List.mem_append]
      exact Or.inl hg
  · by_cases hc2 : s.processing.isEmpty = false
    · -- _check branch
      have hL : loopIter st s likes ready log =
          ((doCheck st s likes ready).1, (doCheck st s likes ready).2, log,
            (doCheck st s likes ready).1.toprocess.isEmpty &&
            (doCheck st s likes ready).1.processing.isEmpty) := by
        simp only [loopIter, if_neg hc1, if_pos hc2]
      rw [hL]
      obtain ⟨c1, c2, c3, c4, c5, c6, c7, c8⟩ :=
        doCheck_spec st ready s likes hwf hnd hb
      refine ⟨c5, c4, c3, c2, c8, fun j hj => Or.inl hj, ?_,
        fun g hg => Or.inl (c6 g hg), c7⟩
      intro hdone
      rw [Bool.and_eq_true, List.isEmpty_iff, List.isEmpty_iff] at hdone
      unfold pend
      rw [hdone.1, hdone.2]
      simp
    · -- nothing to do
      have hL : loopIter st s likes ready log =
          (s, likes, log,
            s.toprocess.isEmpty && s.processing.isEmpty) := by
        simp only [loopIter, if_neg hc1, if_neg hc2]
      rw [hL]
      refine ⟨List.Perm.refl _, hnd, fun j hj => hj, rfl, ?_,
        fun j hj => Or.inl hj, ?_, fun g hg => Or.inl hg,
        fun g hg => Or.inl hg⟩
      · intro i
        have hni : ¬ (i ∈ pend s ∧ i ∉ pend s) := fun hc => hc.2 hc.1
        show likes.getD i Score.negInf = likes.getD i Score.negInf +
          (if i ∈ pend s ∧ i ∉ pend s then contrib st i else 0)
        rw [if_neg hni, add_zero]
      · intro hdone
        rw [Bool.and_eq_true, List.isEmpty_iff, List.isEmpty_iff] at hdone
        unfold pend
        rw [hdone.1, hdone.2]
        simp

theorem iterStates_spec :
    ∀ (stats : List (Nat → ℚ)) (states : List ProcState)
      (likes : List Score) (readys : List (List Nat)) (log : List Nat)
      (ad : Bool),
      states.length = stats.length →
      (∀ s ∈ states, (s.free ++ keysOf s).Nodup ∧ (pend s).Nodup ∧
        ∀ j ∈ pend s, j < likes.length) →
      (iterStates stats states likes readys log ad).1.length =
        states.length ∧
      (iterStates stats states likes readys log ad).2.1.length =
        likes.length ∧
      (∀ s' ∈ (iterStates stats states likes readys log ad).1,
        (s'.free ++ keysOf s').Nodup ∧ (pend s').Nodup) ∧
      (∀ s' ∈ (iterStates stats states likes readys log ad).1,
        ∀ j ∈ pend s', ∃ s ∈ states, j ∈ pend s) ∧
      (∀ j ∈ (iterStates stats states likes readys log ad).2.2.1,
        j ∈ log ∨ ∃ s ∈ states, j ∈ pend s) ∧
      (∀ i,
        (iterStates stats states likes readys log ad).2.1.getD i
            Score.negInf + sumSkip i (stats.zip states) =
          likes.getD i Score.negInf +
            sumSkip i
              (stats.zip (iterStates stats states likes readys log ad).1)) ∧
      ((iterStates stats states likes readys log ad).2.2.2 = true →
        ad = true ∧
        ∀ s' ∈ (iterStates stats states likes readys log ad).1,
          pend s' = []) := by
  intro stats
  induction stats with
  | nil =>
    intro states likes readys log ad hlen hS
    have hst : states = [] := by
      cases states with
      | nil => rfl
      | cons a as => simp at hlen
    subst hst
    refine ⟨rfl, rfl, ?_, ?_, fun j hj => Or.inl hj, fun i => rfl, ?_⟩
    · intro s' hm
      exact absurd hm (List.not_mem_nil s')
    · intro s' hm
      exact absurd hm (List.not_mem_nil s')
    · intro hf
      refine ⟨hf, ?_⟩
      intro s' hm
      exact absurd hm (List.not_mem_nil s')
  | cons st sts ih =>
    intro states likes readys log ad hlen hS
    cases states with
    | nil => simp at hlen
    | cons s ss =>
      obtain ⟨hwfs, hnds, hbs⟩ := hS s (List.mem_cons_self s ss)
      obtain ⟨L1, L2, L3, L4, L5, L6, L7, L8, L9⟩ :=
        loopIter_spec st s likes (readys.headD []) log hwfs hnds hbs
      have hlen2 : ss.length = sts.length := by simpa using hlen
      have hS2 : ∀ sm ∈ ss, (sm.free ++ keysOf sm).Nodup ∧
          (pend sm).Nodup ∧
          ∀ j ∈ pend sm,
            j < (loopIter st s likes (readys.headD []) log).2.1.length := by
        intro sm hm
        obtain ⟨hw, hn, hbb⟩ := hS sm (List.mem_cons_of_mem s hm)
        exact ⟨hw, hn, fun j hj => by rw [L4]; exact hbb j hj⟩
      obtain ⟨A2, B2, C2, D2, E2, F2, G2⟩ := ih ss
        (loopIter st s likes (readys.headD []) log).2.1 readys.tail
        (loopIter st s likes (readys.headD []) log).2.2.1
        (ad && (loopIter st s likes (readys.headD []) log).2.2.2)
        hlen2 hS2
      have hit : iterStates (st :: sts) (s :: ss) likes readys log ad =
          ((loopIter st s likes (readys.headD []) log).1 ::
            (iterStates sts ss
              (loopIter st s likes (readys.headD []) log).2.1 readys.tail
              (loopIter st s likes (readys.headD []) log).2.2.1
              (ad && (loopIter st s likes (readys.headD []) log).2.2.2)).1,
            (iterStates sts ss
              (loopIter st s likes (readys.headD []) log).2.1 readys.tail
              (loopIter st s likes (readys.headD []) log).2.2.1
              (ad && (loopIter st s likes (readys.headD []) log).2.2.2)).2) := by
        simp only [iterStates]
      rw [hit]
      refine ⟨?_, ?_, ?_, ?_, ?_, ?_, ?_⟩
      · simp only [List.length_cons, A2]
      · rw [B2, L4]
      · intro s' hm
        rcases List.mem_cons.mp hm with h1 | h2
        · subst h1
          exact ⟨L1.nodup_iff.mpr hwfs, L2⟩
        · exact C2 s' h2
      · intro s' hm j hj
        rcases List.mem_cons.mp hm with h1 | h2
        · subst h1
          exact ⟨s, List.mem_cons_self s ss, L3 j hj⟩
        · obtain ⟨sm, hsm, hjm⟩ := D2 s' h2 j hj
          exact ⟨sm, List.mem_cons_of_mem s hsm, hjm⟩
      · intro j hj
        rcases E2 j hj with h1 | ⟨sm, hsm, hjm⟩
        · rcases L6 j h1 with h3 | h4
          · exact Or.inl h3
          · exact Or.inr ⟨s, List.mem_cons_self s ss, h4⟩
        · exact Or.inr ⟨sm, List.mem_cons_of_mem s hsm, hjm⟩
      · intro i
        have l5 := L5 i
        have f2 := F2 i
        simp only [List.zip_cons_cons, sumSkip]
        have hkey :
            (if i ∈ pend s ∧
                i ∉ pend (loopIter st s likes (readys.headD []) log).1
              then contrib st i else 0) +
            (if i ∈ pend s then (0 : Score) else contrib st i) =
            (if i ∈ pend (loopIter st s likes (readys.headD []) log).1
              then (0 : Score) else contrib st i) := by
          by_cases h1 : i ∈ pend s
          · by_cases h2 : i ∈ pend (loopIter st s likes (readys.headD []) log).1
            · rw [if_neg (fun hc => hc.2 h2), if_pos h1, if_pos h2, add_zero]
            · rw [if_pos ⟨h1, h2⟩, if_pos h1, if_neg h2, add_zero]
          · have h2 : i ∉ pend (loopIter st s likes (readys.headD []) log).1 :=
              fun hc => h1 (L3 i hc)
            rw [if_neg (fun hc => h1 hc.1), if_neg h1, if_neg h2, zero_add]
        calc (iterStates sts ss
              (loopIter st s likes (readys.headD []) log).2.1 readys.tail
              (loopIter st s likes (readys.headD []) log).2.2.1
              (ad && (loopIter st s likes (readys.headD []) log).2.2.2)).2.1.getD
                i Score.negInf +
            ((if i ∈ pend s then (0 : Score) else contrib st i) +
              sumSkip i (sts.zip ss)) =
            ((iterStates sts ss
              (loopIter st s likes (readys.headD []) log).2.1 readys.tail
              (loopIter st s likes (readys.headD []) log).2.2.1
              (ad && (loopIter st s likes (readys.headD []) log).2.2.2)).2.1.getD
                i Score.negInf +
              sumSkip i (sts.zip ss)) +
              (if i ∈ pend s then (0 : Score) else contrib st i) := by
              abel
          _ = ((loopIter st s likes (readys.headD []) log).2.1.getD i
                Score.negInf +
              sumSkip i (sts.zip (iterStates sts ss
                (loopIter st s likes (readys.headD []) log).2.1 readys.tail
                (loopIter st s likes (readys.headD []) log).2.2.1
                (ad && (loopIter st s likes (readys.headD []) log).2.2.2)).1)) +
              (if i ∈ pend s then (0 : Score) else contrib st i) := by
              rw [f2]
          _ = ((likes.getD i Score.negInf +
              (if i ∈ pend s ∧
                  i ∉ pend (loopIter st s likes (readys.headD []) log).1
                then contrib st i else 0)) +
              sumSkip i (sts.zip (iterStates sts ss
                (loopIter st s likes (readys.headD []) log).2.1 readys.tail
                (loopIter st s likes (readys.headD []) log).2.2.1
                (ad && (loopIter st s likes (readys.headD []) log).2.2.2)).1)) +
              (if i ∈ pend s then (0 : Score) else contrib st i) := by
              rw [l5]
          _ = likes.getD i Score.negInf +
              (((if i ∈ pend s ∧
                  i ∉ pend (loopIter st s likes (readys.headD []) log).1
                then contrib st i else 0) +
                (if i ∈ pend s then (0 : Score) else contrib st i)) +
              sumSkip i (sts.zip (iterStates sts ss
                (loopIter st s likes (readys.headD []) log).2.1 readys.tail
                (loopIter st s likes (readys.headD []) log).2.2.1
                (ad && (loopIter st s likes (readys.headD []) log).2.2.2)).1)) := by
              abel
          _ = likes.getD i Score.negInf +
              ((if i ∈ pend (loopIter st s likes (readys.headD []) log).1
                then (0 : Score) else contrib st i) +
              sumSkip i (sts.zip (iterStates sts ss
                (loopIter st s likes (readys.headD []) log).2.1 readys.tail
                (loopIter st s likes (readys.headD []) log).2.2.1
                (ad && (loopIter st s likes (readys.headD []) log).2.2.2)).1)) := by
              rw [hkey]
      · intro hflag
        obtain ⟨had, hall⟩ := G2 hflag
        rw [Bool.and_eq_true] at had
        refine ⟨had.1, ?_⟩
        intro s' hm
        rcases List.mem_cons.mp hm with h1 | h2
        · subst h1
          exact L7 had.2
        · exact hall s' h2

/-- Sum of full likelihood contributions over a list of statistics. -/
def sumContribs (i : Nat) : List (Nat → ℚ) → Score
  | [] => 0
  | st :: rest => contrib st i + sumContribs i rest

theorem sumSkip_fin (i : Nat) :
    ∀ ps : List ((Nat → ℚ) × ProcState), ∃ q : ℚ, sumSkip i ps = Score.fin q := by
  intro ps
  induction ps with
  | nil => exact ⟨0, rfl⟩
  | cons p rest ih =>
    obtain ⟨q, hq⟩ := ih
    by_cases hm : i ∈ pend p.2
    · refine ⟨0 + q, ?_⟩
      simp only [sumSkip, if_pos hm, hq]
      rfl
    · refine ⟨-(1/2) * p.1 i + q, ?_⟩
      simp only [sumSkip, if_neg hm, hq, contrib]
      rfl

theorem cancel_sumSkip (i : Nat) (ps : List ((Nat → ℚ) × ProcState))
    (a b : Score) (h : a + sumSkip i ps = b + sumSkip i ps) : a = b := by
  obtain ⟨q, hq⟩ := sumSkip_fin i ps
  rw [hq] at h
  exact Score.add_right_cancel_fin a b q h

theorem sumSkip_all_empty (i : Nat) :
    ∀ ps : List ((Nat → ℚ) × ProcState),
      (∀ p ∈ ps, pend p.2 = []) →
      sumSkip i ps = sumContribs i (ps.map Prod.fst) := by
  intro ps
  induction ps with
  | nil => intro _; rfl
  | cons p rest ih =>
    intro h
    have hp : pend p.2 = [] := h p (List.mem_cons_self p rest)
    have hni : i ∉ pend p.2 := by rw [hp]; simp
    simp only [sumSkip, if_neg hni, List.map_cons, sumContribs]
    rw [ih (fun q hq => h q (List.mem_cons_of_mem p hq))]

theorem sumSkip_all_pending (i : Nat) :
    ∀ ps : List ((Nat → ℚ) × ProcState),
      (∀ p ∈ ps, i ∈ pend p.2) → sumSkip i ps = 0 := by
  intro ps
  induction ps with
  | nil => intro _; rfl
  | cons p rest ih =>
    intro h
    simp only [sumSkip, if_pos (h p (List.mem_cons_self p rest))]
    rw [ih (fun q hq => h q (List.mem_cons_of_mem p hq)), add_zero]

theorem runPool_spec (stats : List (Nat → ℚ)) (prior0 : List Score)
    (Q : Nat → Prop) :
    ∀ (sched : List (List (List Nat))) (states : List ProcState)
      (likes : List Score) (log : List Nat) (out : List Score)
      (outlog : List Nat),
      states.length = stats.length →
      likes.length = prior0.length →
      (∀ s ∈ states, (s.free ++ keysOf s).Nodup ∧ (pend s).Nodup ∧
        (∀ j ∈ pend s, j < likes.length) ∧ (∀ j ∈ pend s, Q j)) →
      (∀ j ∈ log, Q j) →
      (∀ i, likes.getD i Score.negInf =
        prior0.getD i Score.negInf + sumSkip i (stats.zip states)) →
      runPool stats sched states likes log = some (out, outlog) →
      out.length = prior0.length ∧
      (∀ j ∈ outlog, Q j) ∧
      (∀ i, out.getD i Score.negInf =
        prior0.getD i Score.negInf + sumContribs i stats) := by
  intro sched
  induction sched with
  | nil =>
    intro states likes log out outlog _ _ _ _ _ hrun
    simp [runPool] at hrun
  | cons rd rest ih =>
    intro states likes log out outlog hlen hplen hS hlog hEq hrun
    obtain ⟨A, B, C, D, E, F, G⟩ := iterStates_spec stats states likes rd
      log true hlen (fun s hm => ⟨(hS s hm).1, (hS s hm).2.1, (hS s hm).2.2.1⟩)
    have hEq2 : ∀ i,
        (iterStates stats states likes rd log true).2.1.getD i Score.negInf =
          prior0.getD i Score.negInf +
            sumSkip i
              (stats.zip (iterStates stats states likes rd log true).1) := by
      intro i
      have hF := F i
      rw [hEq i] at hF
      have hF2 : (iterStates stats states likes rd log true).2.1.getD i
            Score.negInf + sumSkip i (stats.zip states) =
          (prior0.getD i Score.negInf +
            sumSkip i
              (stats.zip (iterStates stats states likes rd log true).1)) +
            sumSkip i (stats.zip states) := by
        rw [hF]
        abel
      exact cancel_sumSkip i (stats.zip states) _ _ hF2
    by_cases hflag : (iterStates stats states likes rd log true).2.2.2 = true
    · have hout : out = (iterStates stats states likes rd log true).2.1 ∧
          outlog = (iterStates stats states likes rd log true).2.2.1 := by
        simp only [runPool, hflag, if_true] at hrun
        injection hrun with hrun
        rw [Prod.mk.injEq] at hrun
        exact ⟨hrun.1.symm, hrun.2.symm⟩
      obtain ⟨hG1, hG2⟩ := G hflag
      refine ⟨?_, ?_, ?_⟩
      · rw [hout.1, B, hplen]
      · intro j hj
        rw [hout.2] at hj
        rcases E j hj with h1 | ⟨sm, hsm, hjm⟩
        · exact hlog j h1
        · exact (hS sm hsm).2.2.2 j hjm
      · intro i
        rw [hout.1, hEq2 i]
        have hemp : ∀ p ∈ stats.zip (iterStates stats states likes rd
            log true).1, pend p.2 = [] := by
          intro p hp
          exact hG2 p.2 (List.of_mem_zip hp).2
        rw [sumSkip_all_empty i _ hemp]
        rw [List.map_fst_zip]
        rw [A, hlen]
    · have hrun2 : runPool stats rest
          (iterStates stats states likes rd log true).1
          (iterStates stats states likes rd log true).2.1
          (iterStates stats states likes rd log true).2.2.1 =
          some (out, outlog) := by
        simp only [runPool, hflag, if_false] at hrun
        exact hrun
      refine ih (iterStates stats states likes rd log true).1
        (iterStates stats states likes rd log true).2.1
        (iterStates stats states likes rd log true).2.2.1 out outlog
        (by rw [A, hlen]) (by rw [B, hplen]) ?_ ?_ hEq2 hrun2
      · intro s' hm
        refine ⟨(C s' hm).1, (C s' hm).2, ?_, ?_⟩
        · intro j hj
          obtain ⟨sm, hsm, hjm⟩ := D s' hm j hj
          rw [B]
          exact (hS sm hsm).2.2.1 j hjm
        · intro j hj
          obtain ⟨sm, hsm, hjm⟩ := D s' hm j hj
          exact (hS sm hsm).2.2.2 j hjm
      · intro j hj
        rcases E j hj with h1 | ⟨sm, hsm, hjm⟩
        · exact hlog j h1
        · exact (hS sm hsm).2.2.2 j hjm

theorem toprocess0_mem (likes : List Score) (i : Nat) :
    i ∈ toprocess0 likes ↔
      i < likes.length ∧ (likes.getD i Score.negInf).isFinite = true := by
  unfold toprocess0
  simp [List.mem_filter, List.mem_range]

theorem toprocess0_nodup (likes : List Score) : (toprocess0 likes).Nodup :=
  (List.nodup_range likes.length).filter _

theorem map_prior_getD (pr : Par → ℚ → Score) (thawed : List Par)
    (pl : List (List ℚ)) (i : Nat) (h : i < pl.length) :
    (pl.map (combinedPrior pr thawed)).getD i Score.negInf =
      combinedPrior pr thawed (pl.getD i []) := by
  rw [List.getD_eq_getD_get?, List.getD_eq_getD_get?, List.get?_map]
  cases hg : pl.get? i with
  | none =>
    rw [List.get?_eq_none] at hg
    omega
  | some v => simp

theorem totalLike_eq (i : Nat) :
    ∀ models : List XModel,
      totalLike i models = sumContribs i (models.map XModel.stat) := by
  intro models
  induction models with
  | nil => rfl
  | cons m rest ih =>
    simp only [totalLike, List.map_cons, sumContribs]
    rw [ih]

theorem foldl_prior_negInf (pr : Par → ℚ → Score) :
    ∀ (l : List (Par × ℚ)) (a : Score),
      (a = Score.negInf ∨ ∃ pv ∈ l, pr pv.1 pv.2 = Score.negInf) →
      l.foldl (fun a pv => a + pr pv.1 pv.2) a = Score.negInf := by
  intro l
  induction l with
  | nil =>
    intro a h
    rcases h with h1 | ⟨pv, hm, _⟩
    · exact h1
    · simp at hm
  | cons p rest ih =>
    intro a h
    simp only [List.foldl_cons]
    rcases h with h1 | ⟨pv, hm, hpv⟩
    · refine ih _ (Or.inl ?_)
      rw [h1, Score.negInf_add]
    · rcases List.mem_cons.mp hm with h2 | h3
      · refine ih _ (Or.inl ?_)
        rw [h2] at hpv
        rw [hpv, Score.add_negInf]
      · exact ih _ (Or.inr ⟨pv, h3, hpv⟩)

theorem zip_get?_mem {α β : Type} :
    ∀ (l1 : List α) (l2 : List β) (k : Nat) (a : α) (b : β),
      l1.get? k = some a → l2.get? k = some b → (a, b) ∈ l1.zip l2 := by
  intro l1
  induction l1 with
  | nil => intro l2 k a b h; simp at h
  | cons x xs ih =>
    intro l2 k a b h1 h2
    cases l2 with
    | nil => simp at h2
    | cons y ys =>
      cases k with
      | zero =>
        simp only [List.get?] at h1 h2
        injection h1 with h1
        injection h2 with h2
        subst h1; subst h2
        simp [List.zip_cons_cons]
      | succ n =>
        simp only [List.get?] at h1 h2
        simp only [List.zip_cons_cons, List.mem_cons]
        exact Or.inr (ih ys n a b h1 h2)

theorem combinedPrior_negInf (pr : Par → ℚ → Score) (thawed : List Par)
    (vals : List ℚ) (k : Nat) (p : Par) (v : ℚ)
    (hp : thawed.get? k = some p) (hv : vals.get? k = some v)
    (hneg : pr p v = Score.negInf) :
    combinedPrior pr thawed vals = Score.negInf := by
  unfold combinedPrior
  exact foldl_prior_negInf pr _ _
    (Or.inr ⟨(p, v), zip_get?_mem thawed vals k p v hp hv, hneg⟩)

/-- Par._flatPrior respects the hard bounds: -inf strictly outside. -/
theorem flatPrior_bound (p : Par) (v : ℚ)
    (h : v < p.minval ∨ p.maxval < v) : flatPrior p v = Score.negInf := by
  unfold flatPrior
  rw [if_pos h]

theorem map_run_spec {α : Sort _} (f : α) (pr : Par → ℚ → Score)
    (thawed : List Par) (models : List XModel)
    (paramlist : List (List ℚ)) (sched : List (List (List Nat)))
    (out : List Score) (log : List Nat)
    (hw : ∀ m ∈ models, m.workers.Nodup)
    (hmap : XspecPool.map f pr thawed models paramlist sched =
      some (out, log)) :
    out.length = paramlist.length ∧
    (∀ j ∈ log, j ∈ toprocess0 (paramlist.map (combinedPrior pr thawed))) ∧
    (∀ i, out.getD i Score.negInf =
      (paramlist.map (combinedPrior pr thawed)).getD i Score.negInf +
        sumContribs i (models.map XModel.stat)) := by
  have hrun := hmap
  simp only [XspecPool.map] at hrun
  have hmain := runPool_spec (models.map XModel.stat)
    (paramlist.map (combinedPrior pr thawed))
    (fun j => j ∈ toprocess0 (paramlist.map (combinedPrior pr thawed)))
    sched
    (models.map (fun m => ProcState.mk
      (toprocess0 (paramlist.map (combinedPrior pr thawed))) m.workers []))
    (paramlist.map (combinedPrior pr thawed)) [] out log
    (by simp) rfl ?_ (by simp) ?_ hrun
  · refine ⟨by rw [hmain.1]; simp, hmain.2.1, hmain.2.2⟩
  · -- per-state invariants of the initial states
    intro s hs
    obtain ⟨m, hm, hsm⟩ := List.mem_map.mp hs
    subst hsm
    refine ⟨?_, ?_, ?_, ?_⟩
    · simp only [keysOf, List.map_nil, List.append_nil]
      exact hw m hm
    · simp only [pend, List.map_nil, List.append_nil]
      exact toprocess0_nodup _
    · intro j hj
      simp only [pend, List.map_nil, List.append_nil] at hj
      rw [List.length_map]
      have := (toprocess0_mem _ j).mp hj
      rw [List.length_map] at this
      exact this.1
    · intro j hj
      simp only [pend, List.map_nil, List.append_nil] at hj
      exact hj
  · -- the accumulator initially equals the prior plus no contributions
    intro i
    by_cases hfin : i ∈ toprocess0 (paramlist.map (combinedPrior pr thawed))
    · have hall : ∀ p ∈ (models.map XModel.stat).zip
          (models.map (fun m => ProcState.mk
            (toprocess0 (paramlist.map (combinedPrior pr thawed)))
            m.workers [])), i ∈ pend p.2 := by
        intro p hp
        have := (List.of_mem_zip hp).2
        obtain ⟨m, hm, hsm⟩ := List.mem_map.mp this
        rw [← hsm]
        simp only [pend, List.map_nil, List.append_nil]
        exact hfin
      rw [sumSkip_all_pending i _ hall, add_zero]
    · have hni : (paramlist.map (combinedPrior pr thawed)).getD i
          Score.negInf = Score.negInf := by
        by_cases hlt : i < (paramlist.map (combinedPrior pr thawed)).length
        · have := toprocess0_mem (paramlist.map (combinedPrior pr thawed)) i
          rw [this] at hfin
          push_neg at hfin
          have hnf := hfin hlt
          rw [← Score.isFinite_false_iff]
          simpa using hnf
        · push_neg at hlt
          exact List.getD_eq_default _ _ hlt
      rw [hni]
      obtain ⟨q, hq⟩ := sumSkip_fin i ((models.map XModel.stat).zip
        (models.map (fun m => ProcState.mk
          (toprocess0 (paramlist.map (combinedPrior pr thawed)))
          m.workers [])))
      rw [hq, Score.negInf_add]

/-- C3: the pool's map returns one entry per input vector, and entry i
is the score of input vector i - its prior plus the summed group
likelihoods - for every schedule of worker completions that lets the
run finish, so output order matches input order regardless of
completion order. -/
theorem pool_map_length_order {α : Sort _} (f : α) (pr : Par → ℚ → Score)
    (thawed : List Par) (models : List XModel)
    (paramlist : List (List ℚ)) (sched : List (List (List Nat)))
    (out : List Score) (log : List Nat)
    (hw : ∀ m ∈ models, m.workers.Nodup)
    (hmap : XspecPool.map f pr thawed models paramlist sched =
      some (out, log)) :
    out.length = paramlist.length ∧
    ∀ i, i < paramlist.length →
      out.getD i Score.negInf = scoreOf pr thawed models paramlist i := by
  obtain ⟨h1, _, h3⟩ := map_run_spec f pr thawed models paramlist sched
    out log hw hmap
  refine ⟨h1, ?_⟩
  intro i hi
  rw [h3 i, map_prior_getD pr thawed paramlist i hi]
  unfold scoreOf
  rw [totalLike_eq]

/-- C1: for every admissible vector (finite prior), the value the
pool's map assigns to it is the vector's prior log-probability plus,
for each worker group, -0.5 times the statistic that group's worker
returned for it, summed over all groups. -/
theorem pool_map_admissible_score {α : Sort _} (f : α)
    (pr : Par → ℚ → Score) (thawed : List Par) (models : List XModel)
    (paramlist : List (List ℚ)) (sched : List (List (List Nat)))
    (out : List Score) (log : List Nat) (i : Nat)
    (hw : ∀ m ∈ models, m.workers.Nodup)
    (hmap : XspecPool.map f pr thawed models paramlist sched =
      some (out, log))
    (hi : i < paramlist.length)
    (hfin : (combinedPrior pr thawed (paramlist.getD i [])).isFinite =
      true) :
    out.getD i Score.negInf =
      combinedPrior pr thawed (paramlist.getD i []) + totalLike i models := by
  obtain ⟨_, _, h3⟩ := map_run_spec f pr thawed models paramlist sched
    out log hw hmap
  rw [h3 i, map_prior_getD pr thawed paramlist i hi, totalLike_eq]

/-- C2: a vector with some thawed parameter strictly outside that
parameter's hard bounds is scored -inf and its index is never sent to
any worker (it never enters the dispatch log). -/
theorem pool_map_out_of_bounds {α : Sort _} (f : α)
    (pr : Par → ℚ → Score) (thawed : List Par) (models : List XModel)
    (paramlist : List (List ℚ)) (sched : List (List (List Nat)))
    (out : List Score) (log : List Nat) (i k : Nat) (p : Par) (v : ℚ)
    (hpr : ∀ (p : Par) (v : ℚ),
      (v < p.minval ∨ p.maxval < v) → pr p v = Score.negInf)
    (hw : ∀ m ∈ models, m.workers.Nodup)
    (hmap : XspecPool.map f pr thawed models paramlist sched =
      some (out, log))
    (hp : thawed.get? k = some p)
    (hv : (paramlist.getD i []).get? k = some v)
    (hout : v < p.minval ∨ p.maxval < v) :
    out.getD i Score.negInf = Score.negInf ∧ i ∉ log := by
  obtain ⟨_, h2, h3⟩ := map_run_spec f pr thawed models paramlist sched
    out log hw hmap
  have hneg : combinedPrior pr thawed (paramlist.getD i []) =
      Score.negInf :=
    combinedPrior_negInf pr thawed (paramlist.getD i []) k p v hp hv
      (hpr p v hout)
  have hgetD : (paramlist.map (combinedPrior pr thawed)).getD i
      Score.negInf = Score.negInf := by
    by_cases hlt : i < paramlist.length
    · rw [map_prior_getD pr thawed paramlist i hlt, hneg]
    · push_neg at hlt
      refine List.getD_eq_default _ _ ?_
      simpa using hlt
  constructor
  · rw [h3 i, hgetD, Score.negInf_add]
  · intro hmem
    have := (toprocess0_mem _ i).mp (h2 i hmem)
    rw [hgetD] at this
    simp [Score.isFinite] at this

/-- C10: the function argument emcee passes to the pool's map is never
invoked; the result depends only on the vectors and the model state,
so any two function arguments give identical results. -/
theorem pool_map_ignores_func {α β : Sort _} (f : α) (g : β)
    (pr : Par → ℚ → Score) (thawed : List Par) (models : List XModel)
    (paramlist : List (List ℚ)) (sched : List (List (List Nat))) :
    XspecPool.map f pr thawed models paramlist sched =
      XspecPool.map g pr thawed models paramlist sched := rfl

/-- C4: throughout a run, each model state's free list and busy-job
map partition its channel set: at startup free holds all workers and
the busy map is empty, and each loop_iter step preserves the partition
(with disjointness); any newly busy channel was Free before the step,
and any newly free channel was Busy, so jobs are only assigned to Free
channels and Free/Busy are the only two states. -/
theorem channel_free_busy_invariant (st : Nat → ℚ) (s : ProcState)
    (likes : List Score) (ready log : List Nat) (w : List Nat)
    (hw : w.Nodup)
    (hpart : (s.free ++ keysOf s).Perm w)
    (hnd : (pend s).Nodup)
    (hb : ∀ j ∈ pend s, j < likes.length) :
    ((ProcState.mk (toprocess0 likes) w []).free ++
      keysOf (ProcState.mk (toprocess0 likes) w [])).Perm w ∧
    ((loopIter st s likes ready log).1.free ++
      keysOf (loopIter st s likes ready log).1).Perm w ∧
    (loopIter st s likes ready log).1.free.Disjoint
      (keysOf (loopIter st s likes ready log).1) ∧
    (∀ f ∈ keysOf (loopIter st s likes ready log).1,
      f ∉ keysOf s → f ∈ s.free) ∧
    (∀ f ∈ (loopIter st s likes ready log).1.free,
      f ∉ s.free → f ∈ keysOf s) := by
  obtain ⟨L1, L2, L3, L4, L5, L6, L7, L8, L9⟩ :=
    loopIter_spec st s likes ready log (hpart.nodup_iff.mpr hw) hnd hb
  have hperm2 := L1.trans hpart
  refine ⟨by simp [keysOf], hperm2, ?_, ?_, ?_⟩
  · exact List.disjoint_of_nodup_append (hperm2.nodup_iff.mpr hw)
  · intro g hg hnk
    rcases L8 g hg with h1 | h2
    · exact absurd h1 hnk
    · exact h2
  · intro g hg hnf
    rcases L9 g hg with h1 | h2
    · exact absurd h1 hnf
    · exact h2

/-- One-parameter model with hard bounds [0, 10], used in witnesses. -/
def p1 : Par := ⟨0, "p", "unnamed", 1, 0, 10⟩

/-- One worker group with a single worker (fileno 1) always reporting
statistic 4. -/
def m1 : XModel := ⟨[1], fun _ => 4⟩

/-- Two candidate vectors: [5] is inside the bounds, [20] outside. -/
def plist1 : List (List ℚ) := [[5], [20]]

/-- Schedule: first pass dispatches, second pass completes fileno 1. -/
def sched1 : List (List (List Nat)) := [[[]], [[1]]]

/-- Witness for C1 at the admissible vector 0 of the concrete run. -/
theorem pool_map_admissible_score_witness :
    ((XspecPool.map (0 : Nat) flatPrior [p1] [m1] plist1 sched1).getD
      ([], [])).1.getD 0 Score.negInf =
      combinedPrior flatPrior [p1] (plist1.getD 0 []) + totalLike 0 [m1] := by
  have hs : (XspecPool.map (0 : Nat) flatPrior [p1] [m1] plist1
      sched1).isSome = true := rfl
  obtain ⟨res, hres⟩ := Option.isSome_iff_exists.mp hs
  have hthm := pool_map_admissible_score (0 : Nat) flatPrior [p1] [m1]
    plist1 sched1 res.1 res.2 0 (by decide) (by rw [hres]) (by decide) rfl
  rw [hres]
  simpa using hthm

/-- Witness for C2 at the out-of-bounds vector 1 of the concrete run. -/
theorem pool_map_out_of_bounds_witness :
    ((XspecPool.map (0 : Nat) flatPrior [p1] [m1] plist1 sched1).getD
      ([], [])).1.getD 1 Score.negInf = Score.negInf ∧
    1 ∉ ((XspecPool.map (0 : Nat) flatPrior [p1] [m1] plist1
      sched1).getD ([], [])).2 := by
  have hs : (XspecPool.map (0 : Nat) flatPrior [p1] [m1] plist1
      sched1).isSome = true := rfl
  obtain ⟨res, hres⟩ := Option.isSome_iff_exists.mp hs
  have hthm := pool_map_out_of_bounds (0 : Nat) flatPrior [p1] [m1]
    plist1 sched1 res.1 res.2 1 0 p1 20 flatPrior_bound (by decide)
    (by rw [hres]) (by decide) (by decide) (by norm_num [p1])
  rw [hres]
  simpa using hthm

/-- Witness for C3 on the concrete run: the output has one entry per
input vector and entry 0 carries the score of vector 0. -/
theorem pool_map_length_order_witness :
    ((XspecPool.map (0 : Nat) flatPrior [p1] [m1] plist1 sched1).getD
      ([], [])).1.length = plist1.length ∧
    ((XspecPool.map (0 : Nat) flatPrior [p1] [m1] plist1 sched1).getD
      ([], [])).1.getD 0 Score.negInf =
      scoreOf flatPrior [p1] [m1] plist1 0 := by
  have hs : (XspecPool.map (0 : Nat) flatPrior [p1] [m1] plist1
      sched1).isSome = true := rfl
  obtain ⟨res, hres⟩ := Option.isSome_iff_exists.mp hs
  have hthm := pool_map_length_order (0 : Nat) flatPrior [p1] [m1]
    plist1 sched1 res.1 res.2 (by decide) (by rw [hres])
  rw [hres]
  exact ⟨by simpa using hthm.1, by simpa using hthm.2 0 (by decide)⟩

/-- Concrete scheduler state for the C4 witness: one pending index,
two free workers, none busy. -/
def s4 : ProcState := ⟨[0], [1, 2], []⟩

/-- Witness for C4 on a concrete step of the scheduler. -/
theorem channel_free_busy_invariant_witness :
    ((ProcState.mk (toprocess0 [Score.fin 0]) [1, 2] []).free ++
      keysOf (ProcState.mk (toprocess0 [Score.fin 0]) [1, 2] [])).Perm
        [1, 2] ∧
    ((loopIter (fun _ => 4) s4 [Score.fin 0] [] []).1.free ++
      keysOf (loopIter (fun _ => 4) s4 [Score.fin 0] [] []).1).Perm
        [1, 2] ∧
    (loopIter (fun _ => 4) s4 [Score.fin 0] [] []).1.free.Disjoint
      (keysOf (loopIter (fun _ => 4) s4 [Score.fin 0] [] []).1) ∧
    (∀ f ∈ keysOf (loopIter (fun _ => 4) s4 [Score.fin 0] [] []).1,
      f ∉ keysOf s4 → f ∈ s4.free) ∧
    (∀ f ∈ (loopIter (fun _ => 4) s4 [Score.fin 0] [] []).1.free,
      f ∉ s4.free → f ∈ keysOf s4) :=
  channel_free_busy_invariant (fun _ => 4) s4 [Score.fin 0] [] [] [1, 2]
    (by decide) (by decide) (by decide) (by decide)

/-- Witness for the amended C9 theorem at the bare index "3". -/
theorem defpart_defaults_witness :
    (1 : Int) = 1 ∧
    ((splitOnChar ':' ("3".data)).length = 1 → "unnamed" = "unnamed") ∧
    (∀ b c : List Char, splitOnChar ':' ("3".data) = [b, c] →
      pyStrip b = [] → "unnamed" = "unnamed") :=
  defpart_defaults ("3".data) 1 "unnamed" 3 (by decide) (by decide)
